import Mathlib

/-!
Formal model of the change-ringing core of run.py: place-notation parsing,
method construction, touch composition (row generation, truncation at an
early occurrence of rounds, come-round validation) and the derived
analyses (method lead counts with the half-lead rule, run counting, and
calling positions).

Rows are modelled as lists of 1-based bell numbers; at the fixed stage of 8
the bell symbols of run.py are exactly the digit characters 1 to 8, so the
character row "12345678" corresponds to the list [1,2,3,4,5,6,7,8] and the
correspondence is bijective.  Code that can raise a Python exception that
is not one of the documented error kinds (IndexError, KeyError,
AssertionError, ValueError from int conversion or list.index) is modelled
with Option, where none stands for an uncontrolled exception; the
documented touch-level failures are modelled with Except TouchError.
-/

namespace Spliced

/-- A row: a permutation of the bells, as 1-based bell numbers. -/
abbrev Row := List Nat

/-- Fixed stage of run.py: STAGE = 8. -/
def STAGE : Nat := 8

/-- Rounds, the identity row: BELL_NAMES up to the stage, as bell numbers. -/
def ROUNDS : Row := [1, 2, 3, 4, 5, 6, 7, 8]

/-- The tenor is the highest-numbered bell of the stage: BELL_NAMES at
index STAGE minus 1, which at stage 8 is bell number 8. -/
def TENOR : Nat := 8

/-- Bell-symbol alphabet of run.py, in order. -/
def BELL_NAMES : List Char := ("1234567890ETABCD").toList

/-- Model of transpose_row_by_row: the output at position i is the symbol
of lhs at the 1-based position given by rhs at i.  In run.py the entries
of rhs are decoded with int(ch); at stage 8 every row entry is a digit in
1..8, so the decoding is the identity on bell numbers and the index
b - 1 is always in range for the rows the program builds. -/
def transpose_row_by_row (lhs rhs : Row) : Row :=
  rhs.map (fun b => lhs.getD (b - 1) 0)

/-- Worker for transpose_row_by_pn: walks the row with a 1-based place
counter.  Returns none where run.py would raise: when the assertion that
a place and its successor are not both fixed fails, or when a swap would
read past the end of the row. -/
def transpose_aux (places : List Nat) : Nat → List Nat → Option (List Nat)
  | _, [] => some []
  | place, x :: rest =>
    if place ∈ places then
      (transpose_aux places (place + 1) rest).map (fun r => x :: r)
    else
      match rest with
      | [] => none
      | y :: rest2 =>
        if place + 1 ∈ places then none
        else (transpose_aux places (place + 2) rest2).map (fun r => y :: x :: r)

/-- Model of transpose_row_by_pn: apply one change, keeping the listed
places fixed and swapping the remaining positions in adjacent pairs. -/
def transpose_row_by_pn (row : Row) (places : List Nat) : Option Row :=
  transpose_aux places 1 row

/-- Model of convert_bell_string: the 1-based index of a symbol in
BELL_NAMES, or none for an unknown symbol (run.py raises ValueError). -/
def convert_bell_string (bell : Char) : Option Nat :=
  match BELL_NAMES.indexOf? bell with
  | some i => some (i + 1)
  | none => none

/-- Characters stripped from both ends of a normalized place-notation
block by run.py, namely dot, ampersand, plus and space. -/
def stripSet : List Char := ['.', '&', '+', ' ']

/-- One match of the regular expression dots-cross-dots at the head of the
string: a maximal run of dots, then x or -, then a maximal run of dots.
Returns the remainder after the match, or none when there is no match at
the head.  The pattern never needs backtracking since a dot can never
stand for the cross character. -/
def crossMatch (s : List Char) : Option (List Char) :=
  match s.dropWhile (fun c => c = '.') with
  | c :: rest =>
    if c = 'x' ∨ c = '-' then some (rest.dropWhile (fun c => c = '.'))
    else none
  | [] => none

theorem dropWhile_length_le (p : Char → Bool) (l : List Char) :
    (l.dropWhile p).length ≤ l.length := by
  induction l with
  | nil => simp [List.dropWhile]
  | cons a l ih =>
    by_cases hp : p a
    · simp only [List.dropWhile, hp]
      exact Nat.le_succ_of_le ih
    · simp [List.dropWhile, hp]

theorem crossMatch_length {s r : List Char} (h : crossMatch s = some r) :
    r.length < s.length := by
  unfold crossMatch at h
  rcases hd : s.dropWhile (fun c => c = '.') with _ | ⟨c, rest⟩ <;> rw [hd] at h
  · exact absurd h (by simp)
  · by_cases hc : c = 'x' ∨ c = '-'
    · simp only [if_pos hc, Option.some.injEq] at h
      subst h
      calc (rest.dropWhile (fun c => c = '.')).length
          ≤ rest.length := dropWhile_length_le _ rest
        _ < (c :: rest).length := Nat.lt_succ_self _
        _ ≤ s.length := by
            rw [← hd]; exact dropWhile_length_le _ s
    · exact absurd h (by simp [hc])

/-- Fuel-driven worker for the substitution step.  Every step consumes at
least one character of the string (a match always eats its cross
character, a non-match emits one character), so fuel equal to the length
of the string is always sufficient and the fuel-exhausted fallback is
never reached. -/
def subCrossF : Nat → List Char → List Char
  | 0, s => s
  | _ + 1, [] => []
  | fuel + 1, c :: rest =>
    match crossMatch (c :: rest) with
    | some r => '.' :: '-' :: '.' :: subCrossF fuel r
    | none => c :: subCrossF fuel rest

/-- Model of the substitution step of parse_pn: every occurrence of the
pattern dots-cross-dots is replaced by the canonical dot-cross-dot,
scanning left to right with non-overlapping matches, exactly as re.sub
does for this pattern. -/
def subCross (s : List Char) : List Char := subCrossF s.length s

/-- Strip the characters of stripSet from both ends of a list, as the
Python strip call does. -/
def stripEnds (s : List Char) : List Char :=
  ((s.dropWhile (fun c => c ∈ stripSet)).reverse.dropWhile
    (fun c => c ∈ stripSet)).reverse

/-- Model of the replace step: every non-overlapping occurrence of two
consecutive dots is collapsed to one, scanning left to right. -/
def collapseDD : List Char → List Char
  | '.' :: '.' :: rest => '.' :: collapseDD rest
  | c :: rest => c :: collapseDD rest
  | [] => []

/-- The change tokens of a comma-free place-notation block: substitute
crosses, strip the ends, collapse doubled dots, then split on dots. -/
def pnTokens (pn : List Char) : List (List Char) :=
  (collapseDD (stripEnds (subCross pn))).splitOn '.'

/-- Convert one change token: the cross token gives the empty place-set,
any other token is converted symbol by symbol. -/
def convert_place (tok : List Char) : Option (List Nat) :=
  if tok = ['-'] then some []
  else tok.mapM convert_bell_string

/-- The per-change place-sets of a comma-free block, before any symmetry
expansion. -/
def convert_block (pn : List Char) : Option (List (List Nat)) :=
  (pnTokens pn).mapM convert_place

/-- Mirror a parsed block: the block followed by the reverse of all but
its last element. -/
def mirror (conv : List (List Nat)) : List (List Nat) :=
  conv ++ conv.dropLast.reverse

/-- Model of parse_pn on a comma-free block.  The symmetry flag is read
from the original string: at top level the block is symmetric only when
it starts with an ampersand, inside a comma-joined string it is symmetric
unless it starts with a plus. -/
def parse_pn_block (pn : List Char) (expect_symmetric : Bool) :
    Option (List (List Nat)) :=
  let symmetric :=
    if expect_symmetric then ¬ pn.head? = some '+' else pn.head? = some '&'
  (convert_block pn).map (fun conv => if symmetric then mirror conv else conv)

/-- Model of parse_pn.  A string containing a comma is split on commas and
each part is parsed with expect-symmetric set; the parts of splitOn never
contain the separator, so the recursive call of run.py on a part always
takes the comma-free branch, which is parse_pn_block. -/
def parse_pn (pn : List Char) (expect_symmetric : Bool) :
    Option (List (List Nat)) :=
  if ',' ∈ pn then
    ((pn.splitOn ',').mapM (fun part => parse_pn_block part true)).map
      List.flatten
  else parse_pn_block pn expect_symmetric

/-- A method: the rows of one lead starting from rounds, and the three
lead heads reachable from the end of the lead. -/
structure Method where
  name : String
  lead_rows : List Row
  lead_head_plain : Row
  lead_head_bob : Row
  lead_head_single : Row
deriving DecidableEq

/-- The fixed bob place-set of run.py. -/
def BOB_PLACES : List Nat := [1, 4]

/-- The fixed single place-set of run.py. -/
def SINGLE_PLACES : List Nat := [1, 2, 3, 4]

/-- The lead-generation loop of Method: for each place-set in order,
record the current row and advance it by that place-set.  Returns the
recorded rows and the row reached after the last change. -/
def buildLead : List (List Nat) → Row → Option (List Row × Row)
  | [], cur => some ([], cur)
  | places :: rest, cur =>
    match transpose_row_by_pn cur places with
    | none => none
    | some next =>
      match buildLead rest next with
      | none => none
      | some (rows, fin) => some (cur :: rows, fin)

/-- Model of the Method constructor: parse the place notation, generate
the lead from rounds, and derive the three lead heads; the bob and single
lead heads are obtained from the last recorded lead row. -/
def Method.build (name : String) (pn_string : List Char) : Option Method :=
  match parse_pn pn_string false with
  | none => none
  | some pns =>
    match buildLead pns ROUNDS with
    | none => none
    | some (lead_rows, current) =>
      match lead_rows.getLast? with
      | none => none
      | some lastRow =>
        match transpose_row_by_pn lastRow BOB_PLACES,
              transpose_row_by_pn lastRow SINGLE_PLACES with
        | some bob, some sing =>
          some { name := name, lead_rows := lead_rows,
                 lead_head_plain := current,
                 lead_head_bob := bob, lead_head_single := sing }
        | _, _ => none

/-- A lead token of a call-string: method shorthand and optional call
symbol, as produced by the tokenizing regular expression. -/
abbrev Lead := Char × Option Char

/-- A recorded call: call symbol (dash for bob, s for single) and calling
position character. -/
abbrev Call := Char × Char

/-- Model of the call-string tokenizer: the regular expression finds, left
to right, a letter optionally followed by one call symbol; all other
characters are skipped. -/
def tokenize : List Char → List Lead
  | [] => []
  | [c] => if c.isAlpha then [(c, none)] else []
  | c :: d :: rest2 =>
    if c.isAlpha then
      if d = '*' ∨ d = '.' then (c, some d) :: tokenize rest2
      else (c, none) :: tokenize (d :: rest2)
    else tokenize (d :: rest2)

/-- First index of an element in a list, as the Python list index method
finds it, or none when the element is absent. -/
def firstIdx {α : Type} [DecidableEq α] (target : α) : List α → Option Nat
  | [] => none
  | a :: rest =>
    if a = target then some 0 else (firstIdx target rest).map (fun i => i + 1)

/-- Bob calling-position alphabet of run.py. -/
def BOB_POSITIONS : List Char := ("LIBFVMWH").toList

/-- Single calling-position alphabet of run.py. -/
def SINGLE_POSITIONS : List Char := ("LBTFVMWH").toList

/-- Model of calling_pos_at: the character of the calling-position
alphabet at the index of the tenor in the row; none models the exceptions
run.py would raise when the tenor is absent or the index is out of the
alphabet. -/
def calling_pos_at (row : Row) (is_single : Bool) : Option Char :=
  match firstIdx TENOR row with
  | none => none
  | some i => (if is_single then SINGLE_POSITIONS else BOB_POSITIONS).get? i

/-- The touch-level error kinds of run.py that are modelled: the
come-round assertion and the declared-length check. -/
inductive TouchError where
  | DoesNotComeRound : TouchError
  | LengthMismatch : String → Nat → Nat → TouchError
deriving DecidableEq

/-- Decidable equality for results carried in the Except layer, so that
concrete runs of the composer can be checked by evaluation. -/
instance exceptDecEq {e a : Type} [DecidableEq e] [DecidableEq a] :
    DecidableEq (Except e a) := fun x y =>
  match x, y with
  | Except.ok u, Except.ok v =>
    if h : u = v then isTrue (by rw [h])
    else isFalse (by intro hc; cases hc; exact h rfl)
  | Except.error u, Except.error v =>
    if h : u = v then isTrue (by rw [h])
    else isFalse (by intro hc; cases hc; exact h rfl)
  | Except.ok _, Except.error _ => isFalse (by intro hc; cases hc)
  | Except.error _, Except.ok _ => isFalse (by intro hc; cases hc)

/-- The composition loop of gen_rows_and_calls: for each lead token, emit
the rows of that lead transformed by the current lead head, then advance
the lead head by the plain, bob or single lead head of the method; a bob
or single also records a call tagged with the calling position read from
the new lead head.  Returns the rows, the calls, the final lead head and
the length of the last lead rung; none models an uncontrolled exception
(unknown method shorthand, unexpected call symbol, or a calling-position
failure). -/
def genLoop (methods : Char → Option Method) :
    List Lead → Row → Int → Option (List Row × List Call × Row × Int)
  | [], lead_head, lll => some ([], [], lead_head, lll)
  | (m, call) :: rest, lead_head, _ =>
    match methods m with
    | none => none
    | some meth =>
      let leadRows := meth.lead_rows.map (fun r => transpose_row_by_row lead_head r)
      let step : Option (Row × List Call) :=
        match call with
        | none => some (transpose_row_by_row lead_head meth.lead_head_plain, [])
        | some c =>
          if c = '.' then
            let lh := transpose_row_by_row lead_head meth.lead_head_bob
            match calling_pos_at lh false with
            | some p => some (lh, [('-', p)])
            | none => none
          else if c = '*' then
            let lh := transpose_row_by_row lead_head meth.lead_head_single
            match calling_pos_at lh true with
            | some p => some (lh, [('s', p)])
            | none => none
          else none
      match step with
      | none => none
      | some (newHead, newCalls) =>
        match genLoop methods rest newHead ((meth.lead_rows.length : Int)) with
        | none => none
        | some (rows, calls, fin, lll) =>
          some (leadRows ++ rows, newCalls ++ calls, fin, lll)

/-- Model of gen_rows_and_calls: run the composition loop from rounds,
then search the rows for rounds starting at index 1.  When found, trim
the rows there and reduce the last lead length by the number of trimmed
rows; when not found, require the final lead head to be rounds, else the
touch does not come round. -/
def gen_rows_and_calls (methods : Char → Option Method) (leads : List Lead) :
    Option (Except TouchError (List Row × List Call × Int)) :=
  match genLoop methods leads ROUNDS 0 with
  | none => none
  | some (rows, calls, lead_head, lll) =>
    match firstIdx ROUNDS (rows.drop 1) with
    | some j =>
      some (Except.ok (rows.take (j + 1), calls,
        lll - ((rows.length : Int) - ((j + 1 : Nat) : Int))))
    | none =>
      if lead_head = ROUNDS then some (Except.ok (rows, calls, lll))
      else some (Except.error TouchError.DoesNotComeRound)

/-- Insert-or-increment on an association list, modelling one step of the
method-count tally on a Python dict, which keeps insertion order. -/
def bump : List (Char × Nat) → Char → List (Char × Nat)
  | [], c => [(c, 1)]
  | (k, v) :: rest, c =>
    if k = c then (k, v + 1) :: rest else (k, v) :: bump rest c

/-- The base method-count tally: one per token, in token order. -/
def tallyCounts (leads : List Lead) : List (Char × Nat) :=
  leads.foldl (fun acc l => bump acc l.1) []

/-- The half-lead adjustment applied to the tally: the count of the last
lead's method drops by one but never below one. -/
def adjustCounts (base : List (Char × Nat)) (last_sh : Char) :
    List (Char × Nat) :=
  base.map (fun kv => if kv.1 = last_sh then (kv.1, max 1 (kv.2 - 1)) else kv)

/-- The ten substrings the run regular expressions test for at either end
of a row, as bell-number lists: ascending runs of four starting at 1 to 5
and their reverses. -/
def runPatterns : List (List Nat) :=
  [[1, 2, 3, 4], [2, 3, 4, 5], [3, 4, 5, 6], [4, 5, 6, 7], [5, 6, 7, 8],
   [4, 3, 2, 1], [5, 4, 3, 2], [6, 5, 4, 3], [7, 6, 5, 4], [8, 7, 6, 5]]

/-- Does the front regular expression match: the first four symbols of
the row form one of the run patterns. -/
def frontRun (row : Row) : Bool := decide (row.take 4 ∈ runPatterns)

/-- Does the back regular expression match: the last four symbols of the
row form one of the run patterns. -/
def backRun (row : Row) : Bool :=
  decide (row.drop (row.length - 4) ∈ runPatterns)

/-- Model of the run-counting loop: every row adds one for a front match
and one for a back match, independently. -/
def count_runs (rows : List Row) : Nat :=
  rows.foldl
    (fun acc row =>
      (acc + (if frontRun row then 1 else 0)) + (if backRun row then 1 else 0))
    0

/-- A validated touch: the record fields and the derived data the claims
are about.  The method counts are an association list in insertion order,
modelling the Python dict. -/
structure Touch where
  length : Nat
  call_string : String
  rows : List Row
  calls : List Call
  method_counts : List (Char × Nat)
  runs : Nat
deriving DecidableEq

/-- Model of the Touch constructor: tokenize the call-string, compose the
rows and calls, tally the method counts with the half-lead adjustment for
the last lead, check the declared length, and count the runs.  The outer
Option models the uncontrolled exceptions (for example indexing the last
lead of an empty token list); the Except layer carries the documented
failures.  The half-lead comparison of run.py is between the integer
last-lead length and the exact float half of the lead length, which is
the integer comparison twice-length against length. -/
def mkTouch (methods : Char → Option Method) (length : Nat)
    (call_string : String) : Option (Except TouchError Touch) :=
  let leads := tokenize call_string.toList
  match gen_rows_and_calls methods leads with
  | none => none
  | some (Except.error e) => some (Except.error e)
  | some (Except.ok (rows, calls, last_lead_length)) =>
    let base := tallyCounts leads
    match leads.getLast? with
    | none => none
    | some (last_shorthand, _) =>
      match methods last_shorthand with
      | none => none
      | some lastMeth =>
        let counts :=
          if 2 * last_lead_length < (lastMeth.lead_rows.length : Int) then
            adjustCounts base last_shorthand
          else base
        if length = rows.length then
          some (Except.ok
            { length := length, call_string := call_string, rows := rows,
              calls := calls, method_counts := counts,
              runs := count_runs rows })
        else
          some (Except.error
            (TouchError.LengthMismatch call_string length rows.length))

/-!
Helper lemmas about firstIdx and list indexing, shared by the claims.
-/

theorem firstIdx_eq_some_iff {α : Type} [DecidableEq α] (target : α) :
    ∀ (l : List α) (j : Nat),
      firstIdx target l = some j ↔
        (l.get? j = some target ∧ ∀ i, i < j → l.get? i ≠ some target) := by
  intro l
  induction l with
  | nil => intro j; simp [firstIdx]
  | cons a rest ih =>
    intro j
    by_cases ha : a = target
    · subst ha
      simp only [firstIdx, if_pos rfl]
      constructor
      · rintro h
        cases h
        exact ⟨rfl, fun i hi => absurd hi (Nat.not_lt_zero i)⟩
      · rintro ⟨hj, hmin⟩
        rcases j with _ | j
        · rfl
        · exact absurd rfl (hmin 0 (Nat.succ_pos j))
    · simp only [firstIdx, if_neg ha]
      rcases j with _ | j
      · constructor
        · intro h
          rcases hrec : firstIdx target rest with _ | i <;> rw [hrec] at h <;>
            simp at h
        · rintro ⟨hj, _⟩
          rw [List.get?_cons_zero] at hj
          exact absurd (Option.some.inj hj) ha
      · constructor
        · intro h
          rcases hrec : firstIdx target rest with _ | i <;> rw [hrec] at h
          · simp at h
          · simp only [Option.map_some', Option.some.injEq] at h
            have hj : i = j := by omega
            subst hj
            obtain ⟨h1, h2⟩ := (ih i).mp hrec
            refine ⟨h1, ?_⟩
            intro k hk
            rcases k with _ | k
            · rw [List.get?_cons_zero]
              intro hc
              exact ha (Option.some.inj hc)
            · rw [List.get?_cons_succ]
              exact h2 k (by omega)
        · rintro ⟨hj, hmin⟩
          rw [List.get?_cons_succ] at hj
          have hmin' : ∀ i, i < j → rest.get? i ≠ some target := by
            intro i hi
            have := hmin (i + 1) (by omega)
            rwa [List.get?_cons_succ] at this
          rw [(ih j).mpr ⟨hj, hmin'⟩]
          rfl

theorem firstIdx_eq_none_iff {α : Type} [DecidableEq α] (target : α) :
    ∀ l : List α, firstIdx target l = none ↔ ∀ i, l.get? i ≠ some target := by
  intro l
  induction l with
  | nil => simp [firstIdx]
  | cons a rest ih =>
    by_cases ha : a = target
    · subst ha
      simp only [firstIdx, if_pos rfl]
      constructor
      · intro h; cases h
      · intro h
        exact absurd (h 0) (by simp)
    · simp only [firstIdx, if_neg ha]
      constructor
      · intro h i
        rcases i with _ | i
        · rw [List.get?_cons_zero]
          intro hc
          exact ha (Option.some.inj hc)
        · rw [List.get?_cons_succ]
          rcases hrec : firstIdx target rest with _ | k
          · exact (ih.mp hrec) i
          · rw [hrec] at h; simp at h
      · intro h
        rcases hrec : firstIdx target rest with _ | k
        · rfl
        · exfalso
          obtain ⟨h1, _⟩ := (firstIdx_eq_some_iff target rest k).mp hrec
          have := h (k + 1)
          rw [List.get?_cons_succ] at this
          exact this h1

theorem get?_drop_one {α : Type} (l : List α) (i : Nat) :
    (l.drop 1).get? i = l.get? (i + 1) := by
  cases l with
  | nil => simp
  | cons a rest => simp [List.get?_cons_succ]

theorem get?_take_eq {α : Type} :
    ∀ (l : List α) (k i : Nat),
      (l.take k).get? i = if i < k then l.get? i else none := by
  intro l
  induction l with
  | nil => intro k i; simp
  | cons a rest ih =>
    intro k i
    rcases k with _ | k
    · simp
    · rcases i with _ | i
      · simp
      · simp only [List.take, List.get?_cons_succ]
        rw [ih k i]
        by_cases h : i < k
        · rw [if_pos h, if_pos (by omega)]
        · rw [if_neg h, if_neg (by omega)]

/-!
Structure lemmas about the composition loop.
-/

theorem genLoop_cons_some {methods : Char → Option Method} {m : Char}
    {call : Option Char} {rest : List Lead} {lh : Row} {lll0 : Int}
    {rows : List Row} {calls : List Call} {fin : Row} {lll : Int}
    (h : genLoop methods ((m, call) :: rest) lh lll0 =
         some (rows, calls, fin, lll)) :
    ∃ meth newHead newCalls rows' calls',
      methods m = some meth ∧
      genLoop methods rest newHead ((meth.lead_rows.length : Int)) =
        some (rows', calls', fin, lll) ∧
      rows = meth.lead_rows.map (fun r => transpose_row_by_row lh r) ++ rows' ∧
      calls = newCalls ++ calls' ∧
      ((call = none ∧
          newHead = transpose_row_by_row lh meth.lead_head_plain ∧
          newCalls = []) ∨
       (call = some '.' ∧
          newHead = transpose_row_by_row lh meth.lead_head_bob ∧
          ∃ p, calling_pos_at newHead false = some p ∧ newCalls = [('-', p)]) ∨
       (call = some '*' ∧
          newHead = transpose_row_by_row lh meth.lead_head_single ∧
          ∃ p, calling_pos_at newHead true = some p ∧ newCalls = [('s', p)])) := by
  unfold genLoop at h
  rcases hM : methods m with _ | meth <;> rw [hM] at h
  · cases h
  · dsimp only at h
    rcases call with _ | c <;> dsimp only at h
    ·
      rcases hrec : genLoop methods rest
          (transpose_row_by_row lh meth.lead_head_plain)
          ((meth.lead_rows.length : Int)) with _ | res <;> rw [hrec] at h
      · cases h
      · rcases res with ⟨rows', calls', fin', lll'⟩
        simp only [Option.some.injEq, Prod.mk.injEq] at h
        obtain ⟨h1, h2, h3, h4⟩ := h
        subst h3; subst h4
        exact ⟨meth, _, [], rows', calls', rfl, hrec, h1.symm, by simpa using h2.symm,
          Or.inl ⟨rfl, rfl, rfl⟩⟩
    · by_cases hdot : c = '.'
      · subst hdot
        rw [if_pos rfl] at h
        rcases hp : calling_pos_at
            (transpose_row_by_row lh meth.lead_head_bob) false with _ | p <;>
          rw [hp] at h
        · cases h
        · dsimp only at h
          rcases hrec : genLoop methods rest
              (transpose_row_by_row lh meth.lead_head_bob)
              ((meth.lead_rows.length : Int)) with _ | res <;> rw [hrec] at h
          · cases h
          · rcases res with ⟨rows', calls', fin', lll'⟩
            simp only [Option.some.injEq, Prod.mk.injEq] at h
            obtain ⟨h1, h2, h3, h4⟩ := h
            subst h3; subst h4
            exact ⟨meth, _, [('-', p)], rows', calls', rfl, hrec, h1.symm, h2.symm,
              Or.inr (Or.inl ⟨rfl, rfl, p, hp, rfl⟩)⟩
      · by_cases hstar : c = '*'
        · subst hstar
          rw [if_neg hdot, if_pos rfl] at h
          rcases hp : calling_pos_at
              (transpose_row_by_row lh meth.lead_head_single) true with _ | p <;>
            rw [hp] at h
          · cases h
          · dsimp only at h
            rcases hrec : genLoop methods rest
                (transpose_row_by_row lh meth.lead_head_single)
                ((meth.lead_rows.length : Int)) with _ | res <;> rw [hrec] at h
            · cases h
            · rcases res with ⟨rows', calls', fin', lll'⟩
              simp only [Option.some.injEq, Prod.mk.injEq] at h
              obtain ⟨h1, h2, h3, h4⟩ := h
              subst h3; subst h4
              exact ⟨meth, _, [('s', p)], rows', calls', rfl, hrec, h1.symm, h2.symm,
                Or.inr (Or.inr ⟨rfl, rfl, p, hp, rfl⟩)⟩
        · rw [if_neg hdot, if_neg hstar] at h
          cases h

theorem genLoop_methods_defined {methods : Char → Option Method} :
    ∀ {leads : List Lead} {lh : Row} {lll0 : Int}
      {res : List Row × List Call × Row × Int},
      genLoop methods leads lh lll0 = some res →
      ∀ l ∈ leads, ∃ meth, methods l.1 = some meth := by
  intro leads
  induction leads with
  | nil => intro lh lll0 res _ l hl; cases hl
  | cons hd rest ih =>
    intro lh lll0 res h l hl
    rcases hd with ⟨m, call⟩
    rcases res with ⟨rows, calls, fin, lll⟩
    obtain ⟨meth, newHead, newCalls, rows', calls', hM, hrec, _⟩ :=
      genLoop_cons_some h
    rcases List.mem_cons.mp hl with hl | hl
    · subst hl
      exact ⟨meth, hM⟩
    · exact ih hrec l hl

theorem calling_pos_at_eq_some {row : Row} {is_single : Bool} {p : Char} :
    calling_pos_at row is_single = some p ↔
      ∃ j, firstIdx TENOR row = some j ∧
        (if is_single then SINGLE_POSITIONS else BOB_POSITIONS).get? j = some p := by
  unfold calling_pos_at
  rcases hf : firstIdx TENOR row with _ | j
  · simp
  · simp

/-!
Concrete fixtures for the witnesses: a small synthetic method table.  The
claims are universally quantified over the method table, so the table
used by a witness only has to satisfy the hypotheses of the theorem it
instantiates.
-/

/-- A row other than rounds, used by the witness fixtures. -/
def rowB : Row := [2, 1, 4, 3, 6, 5, 8, 7]

/-- Fixture method whose lead passes through rounds in mid-lead, so that
a plain lead of it triggers the early-rounds truncation. -/
def methT : Method :=
  { name := ("T" : String), lead_rows := [ROUNDS, rowB, ROUNDS, rowB],
    lead_head_plain := ROUNDS, lead_head_bob := rowB,
    lead_head_single := rowB }

/-- Fixture method whose plain lead comes round exactly at the end. -/
def methU : Method :=
  { name := ("U" : String), lead_rows := [ROUNDS, rowB],
    lead_head_plain := ROUNDS, lead_head_bob := rowB,
    lead_head_single := rowB }

/-- Fixture method whose plain lead does not come round. -/
def methV : Method :=
  { name := ("V" : String), lead_rows := [ROUNDS, rowB],
    lead_head_plain := rowB, lead_head_bob := rowB,
    lead_head_single := [1, 3, 2, 4, 6, 5, 8, 7] }

/-- Fixture method table holding the three fixture methods. -/
def tblF : Char → Option Method := fun c =>
  if c = 'T' then some methT
  else if c = 'U' then some methU
  else if c = 'V' then some methV
  else none

/-- Claim C1.  Touch composition truncation: writing rows for the row
sequence the loop builds, if rounds first occurs in it at an index k at
least 1 then gen_rows_and_calls returns exactly the first k rows and the
last lead length reduced by the number of rows cut off, and if rounds
does not occur at any index at least 1 (and the touch comes round) the
row sequence is returned in full. -/
theorem gen_truncation_spec
    (methods : Char → Option Method) (leads : List Lead)
    (rows : List Row) (calls : List Call) (fin : Row) (lll : Int)
    (h : genLoop methods leads ROUNDS 0 = some (rows, calls, fin, lll)) :
    (∀ k, 1 ≤ k → rows.get? k = some ROUNDS →
       (∀ i, 1 ≤ i → i < k → rows.get? i ≠ some ROUNDS) →
       gen_rows_and_calls methods leads =
         some (Except.ok (rows.take k, calls,
           lll - ((rows.length : Int) - (k : Int)))))
    ∧ ((∀ i, 1 ≤ i → rows.get? i ≠ some ROUNDS) → fin = ROUNDS →
       gen_rows_and_calls methods leads = some (Except.ok (rows, calls, lll))) := by
  constructor
  · intro k hk1 hkR hkmin
    have hfi : firstIdx ROUNDS (rows.drop 1) = some (k - 1) := by
      rw [firstIdx_eq_some_iff]
      constructor
      · rw [get?_drop_one]
        have : k - 1 + 1 = k := by omega
        rw [this]
        exact hkR
      · intro i hi
        rw [get?_drop_one]
        exact hkmin (i + 1) (by omega) (by omega)
    unfold gen_rows_and_calls
    rw [h]
    dsimp only
    rw [hfi]
    dsimp only
    have : k - 1 + 1 = k := by omega
    rw [this]
  · intro hno hfin
    have hfi : firstIdx ROUNDS (rows.drop 1) = none := by
      rw [firstIdx_eq_none_iff]
      intro i
      rw [get?_drop_one]
      exact hno (i + 1) (by omega)
    unfold gen_rows_and_calls
    rw [h]
    dsimp only
    rw [hfi, if_pos hfin]

/-- Witness for C1, truncation branch: a single plain lead of the fixture
method that passes through rounds after two rows is cut to those two rows
and the last lead length drops from four to two. -/
theorem gen_truncation_spec_witness :
    gen_rows_and_calls tblF [('T', Option.none)] =
      some (Except.ok ([ROUNDS, rowB], ([] : List Call), (2 : Int))) := by
  have hres := (gen_truncation_spec tblF [('T', Option.none)]
      [ROUNDS, rowB, ROUNDS, rowB] [] ROUNDS 4 (by decide)).1 2 (by omega)
      (by decide)
      (by
        intro i h1 h2
        have hi : i = 1 := by omega
        subst hi
        decide)
  simpa using hres

/-- Claim C2.  Come-round validation: when the composed row sequence has
no occurrence of rounds at any index at least 1, composition succeeds
exactly when the final lead head is rounds, and otherwise fails with
DoesNotComeRound. -/
theorem gen_come_round_spec
    (methods : Char → Option Method) (leads : List Lead)
    (rows : List Row) (calls : List Call) (fin : Row) (lll : Int)
    (h : genLoop methods leads ROUNDS 0 = some (rows, calls, fin, lll))
    (hno : ∀ i, 1 ≤ i → rows.get? i ≠ some ROUNDS) :
    ((∃ out, gen_rows_and_calls methods leads = some (Except.ok out)) ↔
      fin = ROUNDS)
    ∧ (fin ≠ ROUNDS →
        gen_rows_and_calls methods leads =
          some (Except.error TouchError.DoesNotComeRound)) := by
  have hfi : firstIdx ROUNDS (rows.drop 1) = none := by
    rw [firstIdx_eq_none_iff]
    intro i
    rw [get?_drop_one]
    exact hno (i + 1) (by omega)
  constructor
  · constructor
    · rintro ⟨out, hout⟩
      by_contra hfin
      unfold gen_rows_and_calls at hout
      rw [h] at hout
      dsimp only at hout
      rw [hfi, if_neg hfin] at hout
      cases hout
    · intro hfin
      refine ⟨(rows, calls, lll), ?_⟩
      unfold gen_rows_and_calls
      rw [h]
      dsimp only
      rw [hfi, if_pos hfin]
  · intro hfin
    unfold gen_rows_and_calls
    rw [h]
    dsimp only
    rw [hfi, if_neg hfin]

/-- Witness for C2, failure branch: a single plain lead of the fixture
method whose lead head is not rounds fails with DoesNotComeRound. -/
theorem gen_come_round_spec_witness :
    gen_rows_and_calls tblF [('V', Option.none)] =
      some (Except.error TouchError.DoesNotComeRound) :=
  (gen_come_round_spec tblF [('V', Option.none)] [ROUNDS, rowB] [] rowB 2
      (by decide)
      (by
        intro i h1 hc
        rcases i with _ | _ | i
        · omega
        · revert hc; decide
        · simp [List.get?] at hc)).2 (by decide)

/-- Claim C7.  Calling positions: a bob or single token records exactly
one call pair whose symbol is dash or s and whose position character sits
in the bob or single alphabet at the index of the tenor in the lead head
reached after applying the bob or single lead-head transformation, so the
lead head is advanced before the position is read. -/
theorem calling_position_spec
    (methods : Char → Option Method) (m : Char) (meth : Method)
    (rest : List Lead) (lh : Row) (lll0 : Int)
    (rows : List Row) (calls : List Call) (fin : Row) (lll : Int)
    (hm : methods m = some meth) :
    (genLoop methods ((m, some '.') :: rest) lh lll0 =
        some (rows, calls, fin, lll) →
      ∃ j p calls',
        firstIdx TENOR (transpose_row_by_row lh meth.lead_head_bob) = some j ∧
        BOB_POSITIONS.get? j = some p ∧
        calls = ('-', p) :: calls')
    ∧ (genLoop methods ((m, some '*') :: rest) lh lll0 =
        some (rows, calls, fin, lll) →
      ∃ j p calls',
        firstIdx TENOR (transpose_row_by_row lh meth.lead_head_single) = some j ∧
        SINGLE_POSITIONS.get? j = some p ∧
        calls = ('s', p) :: calls') := by
  constructor
  · intro h
    obtain ⟨meth1, newHead, newCalls, rows', calls', hM1, _, _, hcalls, hcase⟩ :=
      genLoop_cons_some h
    have hmeq : meth1 = meth := by
      rw [hm] at hM1
      exact (Option.some.inj hM1).symm
    subst hmeq
    rcases hcase with ⟨hc, _, _⟩ | ⟨_, hhead, p, hp, hnc⟩ | ⟨hc, _, _⟩
    · cases hc
    · subst hhead
      obtain ⟨j, hj, hjp⟩ := calling_pos_at_eq_some.mp hp
      subst hnc
      exact ⟨j, p, calls', hj, by simpa using hjp, by simpa using hcalls⟩
    · simp at hc
  · intro h
    obtain ⟨meth1, newHead, newCalls, rows', calls', hM1, _, _, hcalls, hcase⟩ :=
      genLoop_cons_some h
    have hmeq : meth1 = meth := by
      rw [hm] at hM1
      exact (Option.some.inj hM1).symm
    subst hmeq
    rcases hcase with ⟨hc, _, _⟩ | ⟨hc, _, _⟩ | ⟨_, hhead, p, hp, hnc⟩
    · cases hc
    · simp at hc
    · subst hhead
      obtain ⟨j, hj, hjp⟩ := calling_pos_at_eq_some.mp hp
      subst hnc
      exact ⟨j, p, calls', hj, by simpa using hjp, by simpa using hcalls⟩

/-- Witness for C7: a single bob lead of the fixture method records the
call pair of a dash with the position character found at the index of the
tenor in the post-call lead head. -/
theorem calling_position_spec_witness :
    ∃ j p calls',
      firstIdx TENOR (transpose_row_by_row ROUNDS methU.lead_head_bob) = some j ∧
      BOB_POSITIONS.get? j = some p ∧
      ([('-', 'W')] : List Call) = ('-', p) :: calls' :=
  (calling_position_spec tblF 'U' methU [] ROUNDS 0
      [ROUNDS, rowB] [('-', 'W')] rowB 2 (by decide)).1 (by decide)

/-!
Structure lemmas about gen_rows_and_calls and mkTouch.
-/

theorem gen_ok_destruct {methods : Char → Option Method} {leads : List Lead}
    {rows : List Row} {calls : List Call} {lll : Int}
    (h : gen_rows_and_calls methods leads =
      some (Except.ok (rows, calls, lll))) :
    ∃ raw fin rawlll,
      genLoop methods leads ROUNDS 0 = some (raw, calls, fin, rawlll) ∧
      ((∃ j, firstIdx ROUNDS (raw.drop 1) = some j ∧ rows = raw.take (j + 1) ∧
          lll = rawlll - ((raw.length : Int) - ((j + 1 : Nat) : Int))) ∨
       (firstIdx ROUNDS (raw.drop 1) = none ∧ fin = ROUNDS ∧ rows = raw ∧
          lll = rawlll)) := by
  unfold gen_rows_and_calls at h
  rcases hg : genLoop methods leads ROUNDS 0 with _ | ⟨raw, rawcalls, fin, rawlll⟩ <;>
    rw [hg] at h
  · cases h
  · dsimp only at h
    rcases hfi : firstIdx ROUNDS (raw.drop 1) with _ | j <;> rw [hfi] at h
    · by_cases hfin : fin = ROUNDS
      · rw [if_pos hfin] at h
        simp only [Option.some.injEq, Except.ok.injEq, Prod.mk.injEq] at h
        obtain ⟨h1, h2, h3⟩ := h
        subst h1; subst h2; subst h3
        exact ⟨raw, fin, rawlll, rfl, Or.inr ⟨hfi, hfin, rfl, rfl⟩⟩
      · rw [if_neg hfin] at h
        cases h
    · dsimp only at h
      simp only [Option.some.injEq, Except.ok.injEq, Prod.mk.injEq] at h
      obtain ⟨h1, h2, h3⟩ := h
      subst h1; subst h2; subst h3
      exact ⟨raw, fin, rawlll, rfl, Or.inl ⟨j, hfi, rfl, rfl⟩⟩

theorem mkTouch_eq_of_gen {methods : Char → Option Method} {len : Nat}
    {cs : String} {rows : List Row} {calls : List Call} {lll : Int}
    {last_sh : Char} {last_call : Option Char} {lastMeth : Method}
    (hgen : gen_rows_and_calls methods (tokenize cs.toList) =
      some (Except.ok (rows, calls, lll)))
    (hlast : (tokenize cs.toList).getLast? = some (last_sh, last_call))
    (hmeth : methods last_sh = some lastMeth) :
    mkTouch methods len cs =
      if len = rows.length then
        some (Except.ok
          { length := len, call_string := cs, rows := rows, calls := calls,
            method_counts :=
              (if 2 * lll < (lastMeth.lead_rows.length : Int) then
                 adjustCounts (tallyCounts (tokenize cs.toList)) last_sh
               else tallyCounts (tokenize cs.toList)),
            runs := count_runs rows })
      else
        some (Except.error (TouchError.LengthMismatch cs len rows.length)) := by
  simp only [mkTouch, hgen, hlast, hmeth]

theorem mkTouch_ok_destruct {methods : Char → Option Method} {len : Nat}
    {cs : String} {t : Touch}
    (h : mkTouch methods len cs = some (Except.ok t)) :
    ∃ rows calls lll last_sh last_call lastMeth,
      gen_rows_and_calls methods (tokenize cs.toList) =
        some (Except.ok (rows, calls, lll)) ∧
      (tokenize cs.toList).getLast? = some (last_sh, last_call) ∧
      methods last_sh = some lastMeth ∧
      len = rows.length ∧
      t = { length := len, call_string := cs, rows := rows, calls := calls,
            method_counts :=
              (if 2 * lll < (lastMeth.lead_rows.length : Int) then
                 adjustCounts (tallyCounts (tokenize cs.toList)) last_sh
               else tallyCounts (tokenize cs.toList)),
            runs := count_runs rows } := by
  simp only [mkTouch] at h
  rcases hgen : gen_rows_and_calls methods (tokenize cs.toList) with _ | e <;>
    rw [hgen] at h
  · cases h
  · rcases e with e | ⟨rows, calls, lll⟩
    · cases h
    · dsimp only at h
      rcases hlast : (tokenize cs.toList).getLast? with _ | lc <;> rw [hlast] at h
      · cases h
      · rcases lc with ⟨last_sh, last_call⟩
        dsimp only at h
        rcases hmeth : methods last_sh with _ | lastMeth <;> rw [hmeth] at h
        · cases h
        · dsimp only at h
          by_cases hlen : len = rows.length
          · rw [if_pos hlen] at h
            simp only [Option.some.injEq, Except.ok.injEq] at h
            exact ⟨rows, calls, lll, last_sh, last_call, lastMeth, rfl, rfl,
              hmeth, hlen, h.symm⟩
          · rw [if_neg hlen] at h
            cases h

/-!
Lemmas about buildLead, for the method-construction claim.
-/

theorem buildLead_cons_destruct {p : List Nat} {ps : List (List Nat)}
    {cur : Row} {rows : List Row} {fin : Row}
    (h : buildLead (p :: ps) cur = some (rows, fin)) :
    ∃ next rest, transpose_row_by_pn cur p = some next ∧
      buildLead ps next = some (rest, fin) ∧ rows = cur :: rest := by
  unfold buildLead at h
  rcases ht : transpose_row_by_pn cur p with _ | next <;> rw [ht] at h
  · cases h
  · dsimp only at h
    rcases hb : buildLead ps next with _ | pr <;> rw [hb] at h
    · cases h
    · rcases pr with ⟨rest, fin'⟩
      dsimp only at h
      simp only [Option.some.injEq, Prod.mk.injEq] at h
      obtain ⟨h1, h2⟩ := h
      subst h2
      exact ⟨next, rest, rfl, hb, h1.symm⟩

theorem buildLead_length : ∀ {pns : List (List Nat)} {cur : Row}
    {rows : List Row} {fin : Row},
    buildLead pns cur = some (rows, fin) → rows.length = pns.length := by
  intro pns
  induction pns with
  | nil =>
    intro cur rows fin h
    unfold buildLead at h
    simp only [Option.some.injEq, Prod.mk.injEq] at h
    rw [← h.1]
  | cons p ps ih =>
    intro cur rows fin h
    obtain ⟨next, rest, _, hb, hrows⟩ := buildLead_cons_destruct h
    subst hrows
    simp [ih hb]

theorem buildLead_head {pns : List (List Nat)} {cur : Row}
    {rows : List Row} {fin : Row}
    (h : buildLead pns cur = some (rows, fin)) (hne : pns ≠ []) :
    rows.head? = some cur := by
  rcases pns with _ | ⟨p, ps⟩
  · exact absurd rfl hne
  · obtain ⟨next, rest, _, _, hrows⟩ := buildLead_cons_destruct h
    subst hrows
    rfl

theorem buildLead_step : ∀ {pns : List (List Nat)} {cur : Row}
    {rows : List Row} {fin : Row},
    buildLead pns cur = some (rows, fin) →
    ∀ i pnI rowI, pns.get? i = some pnI → rows.get? i = some rowI →
      transpose_row_by_pn rowI pnI =
        (if i + 1 = pns.length then some fin else rows.get? (i + 1)) := by
  intro pns
  induction pns with
  | nil => intro cur rows fin h i pnI rowI hpn _; cases hpn
  | cons p ps ih =>
    intro cur rows fin h i pnI rowI hpn hrow
    obtain ⟨next, rest, htr, hb, hrows⟩ := buildLead_cons_destruct h
    subst hrows
    rcases i with _ | i
    · rw [List.get?_cons_zero] at hpn hrow
      cases Option.some.inj hpn
      cases Option.some.inj hrow
      rcases ps with _ | ⟨q, qs⟩
      · unfold buildLead at hb
        simp only [Option.some.injEq, Prod.mk.injEq] at hb
        obtain ⟨hb1, hb2⟩ := hb
        subst hb1; subst hb2
        simpa using htr
      · have hlen : ¬ (0 + 1 = (p :: q :: qs).length) := by simp
        rw [if_neg hlen, List.get?_cons_succ]
        have hhead := buildLead_head hb (by simp)
        rw [← List.get?_zero] at hhead
        rw [hhead.symm] at htr
        rw [htr]
    · rw [List.get?_cons_succ] at hpn hrow
      have := ih hb i pnI rowI hpn hrow
      rw [List.get?_cons_succ]
      simp only [List.length_cons]
      by_cases hi : i + 1 = ps.length
      · rw [if_pos hi] at this
        rw [if_pos (by omega)]
        exact this
      · rw [if_neg hi] at this
        rw [if_neg (by omega)]
        exact this

/-- Claim C3.  Method construction round-trip: a successfully built
method has as many place-sets as lead rows, its first lead row is rounds,
each place-set applied to its lead row gives the next lead row (the plain
lead head after the last place-set), and the bob and single lead heads
come from the fixed place-sets one-four and one-two-three-four applied to
the last recorded lead row. -/
theorem method_build_spec (name : String) (pn : List Char) (m : Method)
    (h : Method.build name pn = some m) :
    ∃ pns, parse_pn pn false = some pns ∧
      pns.length = m.lead_rows.length ∧
      m.lead_rows.head? = some ROUNDS ∧
      (∀ i pnI rowI, pns.get? i = some pnI → m.lead_rows.get? i = some rowI →
        transpose_row_by_pn rowI pnI =
          (if i + 1 = pns.length then some m.lead_head_plain
           else m.lead_rows.get? (i + 1))) ∧
      ∃ lastRow, m.lead_rows.getLast? = some lastRow ∧
        transpose_row_by_pn lastRow BOB_PLACES = some m.lead_head_bob ∧
        transpose_row_by_pn lastRow SINGLE_PLACES = some m.lead_head_single := by
  unfold Method.build at h
  rcases hp : parse_pn pn false with _ | pns <;> rw [hp] at h
  · cases h
  · dsimp only at h
    rcases hb : buildLead pns ROUNDS with _ | lr <;> rw [hb] at h
    · cases h
    · rcases lr with ⟨lead_rows, current⟩
      dsimp only at h
      rcases hl : lead_rows.getLast? with _ | lastRow <;> rw [hl] at h
      · cases h
      · dsimp only at h
        rcases hbob : transpose_row_by_pn lastRow BOB_PLACES with _ | bob <;>
          rw [hbob] at h
        · cases h
        · rcases hsing : transpose_row_by_pn lastRow SINGLE_PLACES with _ | sing <;>
            rw [hsing] at h
          · cases h
          · dsimp only at h
            cases Option.some.inj h
            have hne : pns ≠ [] := by
              intro hc
              subst hc
              unfold buildLead at hb
              simp only [Option.some.injEq, Prod.mk.injEq] at hb
              obtain ⟨hb1, _⟩ := hb
              rw [← hb1] at hl
              cases hl
            exact ⟨pns, rfl, (buildLead_length hb).symm,
              buildLead_head hb hne,
              fun i pnI rowI hpn hrow => buildLead_step hb i pnI rowI hpn hrow,
              lastRow, hl, hbob, hsing⟩

/-- The method the fixture place notation one-two builds: a single change
keeping places one and two, so one lead row (rounds) and the lead heads
obtained from the three terminal changes. -/
def mJ : Method :=
  { name := ("J" : String), lead_rows := [ROUNDS],
    lead_head_plain := [1, 2, 4, 3, 6, 5, 8, 7],
    lead_head_bob := [1, 3, 2, 4, 6, 5, 8, 7],
    lead_head_single := [1, 2, 3, 4, 6, 5, 8, 7] }

/-- Witness for C3: the round-trip properties instantiated at a concrete
one-change method built from the place notation one-two. -/
theorem method_build_spec_witness :
    Method.build ("J" : String) (("12" : String).toList) = some mJ ∧
    (∃ pns, parse_pn (("12" : String).toList) false = some pns ∧
      pns.length = mJ.lead_rows.length ∧
      mJ.lead_rows.head? = some ROUNDS ∧
      (∀ i pnI rowI, pns.get? i = some pnI → mJ.lead_rows.get? i = some rowI →
        transpose_row_by_pn rowI pnI =
          (if i + 1 = pns.length then some mJ.lead_head_plain
           else mJ.lead_rows.get? (i + 1))) ∧
      ∃ lastRow, mJ.lead_rows.getLast? = some lastRow ∧
        transpose_row_by_pn lastRow BOB_PLACES = some mJ.lead_head_bob ∧
        transpose_row_by_pn lastRow SINGLE_PLACES = some mJ.lead_head_single) :=
  ⟨by decide, method_build_spec ("J" : String) (("12" : String).toList) mJ (by decide)⟩

/-- Claim C6.  Symmetry expansion: a comma-free string with a leading
ampersand parses to the converted block followed by the reverse of all
but its last element; a comma-free string without a leading ampersand is
not mirrored; a string with a comma is split on commas, each block parsed
with symmetric-by-default, and the results concatenated in order. -/
theorem parse_pn_symmetry_spec (s : List Char) :
    (¬ (',' ∈ s) → s.head? = some '&' →
      parse_pn s false =
        (convert_block s).map (fun conv => conv ++ conv.dropLast.reverse))
    ∧ (¬ (',' ∈ s) → s.head? ≠ some '&' →
      parse_pn s false = convert_block s)
    ∧ (',' ∈ s →
      parse_pn s false =
        ((s.splitOn ',').mapM (fun part => parse_pn_block part true)).map
          List.flatten) := by
  refine ⟨?_, ?_, ?_⟩
  · intro hc hamp
    simp [parse_pn, parse_pn_block, mirror, hc, hamp]
  · intro hc hamp
    simp [parse_pn, parse_pn_block, hc, hamp]
  · intro hc
    simp [parse_pn, hc]

/-- Witness for C6: the mirrored branch evaluated on a concrete
ampersand-prefixed comma-free string, the unmirrored branch on a plain
string, and the comma branch on the spec example string. -/
theorem parse_pn_symmetry_spec_witness :
    parse_pn (("&-1-1-1" : String).toList) false =
      (convert_block (("&-1-1-1" : String).toList)).map
        (fun conv => conv ++ conv.dropLast.reverse)
    ∧ parse_pn (("-1-1-1" : String).toList) false =
        convert_block (("-1-1-1" : String).toList)
    ∧ parse_pn (("&-38-14-78,12" : String).toList) false =
        (((("&-38-14-78,12" : String).toList).splitOn ',').mapM
          (fun part => parse_pn_block part true)).map List.flatten :=
  ⟨(parse_pn_symmetry_spec (("&-1-1-1" : String).toList)).1 (by decide) (by decide),
   (parse_pn_symmetry_spec (("-1-1-1" : String).toList)).2.1 (by decide) (by decide),
   (parse_pn_symmetry_spec (("&-38-14-78,12" : String).toList)).2.2 (by decide)⟩

/-- Tokenizing a string with no letter yields no lead token. -/
theorem tokenize_eq_nil :
    ∀ (l : List Char), (∀ c ∈ l, c.isAlpha = false) → tokenize l = [] := by
  intro l
  induction l using tokenize.induct with
  | case1 => intro _; rfl
  | case2 c hc =>
    intro h
    exact absurd hc (by simp [h c (by simp)])
  | case3 c hc =>
    intro h
    simp [tokenize, hc]
  | case4 c d rest2 hc hd ih =>
    intro h
    exact absurd hc (by simp [h c (by simp)])
  | case5 c d rest2 hc hd ih =>
    intro h
    exact absurd hc (by simp [h c (by simp)])
  | case6 c d rest2 hc ih =>
    intro h
    unfold tokenize
    rw [if_neg (by simp [h c (by simp)])]
    exact ih (fun x hx => h x (by simp [hx]))

/-- Claim C10.  A call-string without any ASCII letter tokenizes to no
lead at all, and touch construction then escapes with an uncontrolled
error (the indexing of the last lead of an empty token list), modelled as
none, rather than with one of the documented error kinds. -/
theorem no_letter_crash_spec (methods : Char → Option Method) (len : Nat)
    (cs : String) (h : ∀ c ∈ cs.toList, c.isAlpha = false) :
    tokenize cs.toList = [] ∧ mkTouch methods len cs = none := by
  have htok : tokenize cs.toList = [] := tokenize_eq_nil cs.toList h
  refine ⟨htok, ?_⟩
  unfold mkTouch
  rw [htok]
  rfl

/-- Witness for C10: a non-empty call-string of call symbols and digits
only produces no token and no touch. -/
theorem no_letter_crash_spec_witness :
    tokenize (("*.12" : String).toList) = [] ∧
    mkTouch tblF 0 ("*.12" : String) = none :=
  no_letter_crash_spec tblF 0 ("*.12" : String) (by decide)

/-!
Lemmas about the method-count association list.  Lookup in the
association list models indexing the Python dict by a key.
-/

/-- Lookup of a key in the method-count association list, as Python dict
indexing does; none models a missing key. -/
def lookupCount : List (Char × Nat) → Char → Option Nat
  | [], _ => none
  | (k, v) :: rest, c => if c = k then some v else lookupCount rest c

theorem lookupCount_bump (m c : Char) :
    ∀ (acc : List (Char × Nat)),
      lookupCount (bump acc m) c =
        (if c = m then some ((lookupCount acc c).getD 0 + 1)
         else lookupCount acc c) := by
  intro acc
  induction acc with
  | nil =>
    by_cases h : c = m <;> simp [bump, lookupCount, h]
  | cons kv rest ih =>
    rcases kv with ⟨k, v⟩
    by_cases hkm : k = m
    · subst hkm
      by_cases hck : c = k <;> simp [bump, lookupCount, hck]
    · by_cases hck : c = k
      · subst hck
        have hcm : ¬ c = m := hkm
        simp [bump, lookupCount, hkm, hcm]
      · simp [bump, lookupCount, hkm, hck, ih]

theorem lookupCount_tally_aux (c : Char) :
    ∀ (leads : List Lead) (acc : List (Char × Nat)),
      lookupCount (leads.foldl (fun a l => bump a l.1) acc) c =
        (if lookupCount acc c = none ∧
            leads.countP (fun l => l.1 == c) = 0
         then none
         else some ((lookupCount acc c).getD 0 +
           leads.countP (fun l => l.1 == c))) := by
  intro leads
  induction leads with
  | nil =>
    intro acc
    rcases h : lookupCount acc c with _ | v <;> simp [h]
  | cons hd rest ih =>
    intro acc
    rcases hd with ⟨m, call⟩
    simp only [List.foldl_cons, List.countP_cons]
    rw [ih (bump acc m), lookupCount_bump m c acc]
    by_cases hcm : c = m
    · subst hcm
      simp only [if_pos rfl]
      rcases h : lookupCount acc c with _ | v <;> simp [h] <;> omega
    · have hb : ¬ (m == c) = true := by
        simp only [beq_iff_eq]
        exact fun e => hcm e.symm
      simp only [if_neg hcm, hb, if_false]
      rcases h : lookupCount acc c with _ | v <;> simp [h]

theorem lookupCount_tallyCounts (leads : List Lead) (c : Char) :
    lookupCount (tallyCounts leads) c =
      (if leads.countP (fun l => l.1 == c) = 0 then none
       else some (leads.countP (fun l => l.1 == c))) := by
  unfold tallyCounts
  rw [lookupCount_tally_aux]
  by_cases h : leads.countP (fun l => l.1 == c) = 0 <;>
    simp [lookupCount, h]

theorem lookupCount_adjustCounts (last c : Char) :
    ∀ (base : List (Char × Nat)),
      lookupCount (adjustCounts base last) c =
        (if c = last then
           (lookupCount base c).map (fun v => max 1 (v - 1))
         else lookupCount base c) := by
  intro base
  induction base with
  | nil => by_cases h : c = last <;> simp [adjustCounts, lookupCount, h]
  | cons kv rest ih =>
    rcases kv with ⟨k, v⟩
    unfold adjustCounts
    unfold adjustCounts at ih
    simp only [List.map_cons]
    by_cases hkl : k = last
    · rw [if_pos hkl]
      by_cases hck : c = k
      · have hcl : c = last := by rw [hck, hkl]
        simp [lookupCount, hck, hcl, hkl]
      · have hcl : ¬ c = last := by
          intro e
          exact hck (by rw [e, hkl])
        simp [lookupCount, hck, hcl, ih]
    · rw [if_neg hkl]
      by_cases hck : c = k
      · have hcl : ¬ c = last := by
          intro e
          exact hkl (by rw [← hck, e])
        simp [lookupCount, hck, hcl, hkl]
      · simp [lookupCount, hck, ih]

theorem countP_shorthand_pos {leads : List Lead} {last_sh : Char}
    {last_call : Option Char}
    (h : leads.getLast? = some (last_sh, last_call)) :
    0 < leads.countP (fun l => l.1 == last_sh) := by
  have hm : (last_sh, last_call) ∈ leads := List.mem_of_mem_getLast? h
  rw [List.countP_pos_iff]
  exact ⟨(last_sh, last_call), hm, by simp⟩

/-- Claim C4.  Half-lead rule: every token adds one to the count of its
method; the count of the last lead's method is additionally reduced by
one, but never below one, exactly when twice the effective length of the
last lead is smaller than the length of that method's lead (the
comparison of run.py against the exact float half); every method that
appears in the token list keeps a count of at least one. -/
theorem touch_method_counts_spec
    (methods : Char → Option Method) (len : Nat) (cs : String) (t : Touch)
    (rows : List Row) (calls : List Call) (lll : Int)
    (last_sh : Char) (last_call : Option Char) (lastMeth : Method)
    (hgen : gen_rows_and_calls methods (tokenize cs.toList) =
      some (Except.ok (rows, calls, lll)))
    (hlast : (tokenize cs.toList).getLast? = some (last_sh, last_call))
    (hmeth : methods last_sh = some lastMeth)
    (ht : mkTouch methods len cs = some (Except.ok t)) :
    (∀ c, c ≠ last_sh →
      lookupCount t.method_counts c =
        (if (tokenize cs.toList).countP (fun l => l.1 == c) = 0 then none
         else some ((tokenize cs.toList).countP (fun l => l.1 == c))))
    ∧ lookupCount t.method_counts last_sh =
        some (if 2 * lll < (lastMeth.lead_rows.length : Int)
              then max 1 ((tokenize cs.toList).countP
                (fun l => l.1 == last_sh) - 1)
              else (tokenize cs.toList).countP (fun l => l.1 == last_sh))
    ∧ (∀ c n, lookupCount t.method_counts c = some n → 1 ≤ n) := by
  rw [mkTouch_eq_of_gen hgen hlast hmeth] at ht
  by_cases hlen : len = rows.length
  · rw [if_pos hlen] at ht
    simp only [Option.some.injEq, Except.ok.injEq] at ht
    subst ht
    dsimp only
    have hpos := countP_shorthand_pos hlast
    refine ⟨?_, ?_, ?_⟩
    · intro c hc
      by_cases hhalf : 2 * lll < (lastMeth.lead_rows.length : Int)
      · rw [if_pos hhalf, lookupCount_adjustCounts, if_neg hc, lookupCount_tallyCounts]
      · rw [if_neg hhalf, lookupCount_tallyCounts]
    · by_cases hhalf : 2 * lll < (lastMeth.lead_rows.length : Int)
      · rw [if_pos hhalf, lookupCount_adjustCounts, if_pos rfl,
          lookupCount_tallyCounts, if_neg (by omega), if_pos hhalf]
        rfl
      · rw [if_neg hhalf, lookupCount_tallyCounts, if_neg (by omega),
          if_neg hhalf]
    · intro c n hn
      by_cases hhalf : 2 * lll < (lastMeth.lead_rows.length : Int)
      · rw [if_pos hhalf, lookupCount_adjustCounts] at hn
        by_cases hc : c = last_sh
        · rw [if_pos hc, lookupCount_tallyCounts] at hn
          by_cases h0 : (tokenize cs.toList).countP (fun l => l.1 == c) = 0
          · rw [if_pos h0] at hn; cases hn
          · rw [if_neg h0] at hn
            simp only [Option.map_some', Option.some.injEq] at hn
            omega
        · rw [if_neg hc, lookupCount_tallyCounts] at hn
          by_cases h0 : (tokenize cs.toList).countP (fun l => l.1 == c) = 0
          · rw [if_pos h0] at hn; cases hn
          · rw [if_neg h0] at hn
            cases Option.some.inj hn
            omega
      · rw [if_neg hhalf, lookupCount_tallyCounts] at hn
        by_cases h0 : (tokenize cs.toList).countP (fun l => l.1 == c) = 0
        · rw [if_pos h0] at hn; cases hn
        · rw [if_neg h0] at hn
          cases Option.some.inj hn
          omega
  · rw [if_neg hlen] at ht
    cases ht

/-- The touch the fixture table composes for the call-string of two
plain leads of the fixture method that comes round: the second lead
restarts at rounds, so the touch truncates to two rows and the half-lead
rule reduces the method count from two to one. -/
def touchUU : Touch :=
  { length := 2, call_string := ("UU" : String), rows := [ROUNDS, rowB],
    calls := [], method_counts := [('U', 1)], runs := 2 }

/-- Witness for C4: the half-lead decrement evaluated on the concrete
truncated touch of two plain fixture leads. -/
theorem touch_method_counts_spec_witness :
    lookupCount touchUU.method_counts 'U' =
      some (if 2 * (0 : Int) < ((methU.lead_rows.length : Nat) : Int)
            then max 1 ((tokenize (("UU" : String)).toList).countP
              (fun l => l.1 == 'U') - 1)
            else (tokenize (("UU" : String)).toList).countP
              (fun l => l.1 == 'U')) :=
  (touch_method_counts_spec tblF 2 ("UU" : String) touchUU [ROUNDS, rowB] []
      0 'U' Option.none methU (by decide) (by decide) (by decide)
      (by decide)).2.1

theorem count_runs_eq (rows : List Row) :
    count_runs rows = rows.countP frontRun + rows.countP backRun := by
  have aux : ∀ (l : List Row) (acc : Nat),
      l.foldl
        (fun acc row =>
          (acc + (if frontRun row then 1 else 0)) +
            (if backRun row then 1 else 0)) acc =
        acc + l.countP frontRun + l.countP backRun := by
    intro l
    induction l with
    | nil => intro acc; simp
    | cons r rest ih =>
      intro acc
      simp only [List.foldl_cons, List.countP_cons, ih]
      by_cases hf : frontRun r <;> by_cases hb : backRun r <;>
        simp [hf, hb] <;> omega
  unfold count_runs
  rw [aux]
  omega

/-- Counterexample for C5 as stated: the claim speaks of eight canonical
4-in-a-row patterns, but the canonical list it enumerates (the ascending
runs of four starting at 1 through 5 and their reverses), which is
exactly the list the run regular expressions of run.py test, has ten
members, not eight. -/
theorem run_count_pattern_count_cex : runPatterns.length ≠ 8 := by decide

/-- Claim C5, amended: every row of the final sequence is tested
independently at the front (first four symbols) and at the back (last
four symbols) against the TEN canonical 4-in-a-row patterns, the
ascending runs of four starting at 1 through 5 and their reverses, and
each independent match adds one to the run count, so a single row can
contribute two. -/
theorem run_count_spec
    (methods : Char → Option Method) (len : Nat) (cs : String) (t : Touch)
    (rows : List Row) (calls : List Call) (lll : Int)
    (last_sh : Char) (last_call : Option Char) (lastMeth : Method)
    (hgen : gen_rows_and_calls methods (tokenize cs.toList) =
      some (Except.ok (rows, calls, lll)))
    (hlast : (tokenize cs.toList).getLast? = some (last_sh, last_call))
    (hmeth : methods last_sh = some lastMeth)
    (ht : mkTouch methods len cs = some (Except.ok t)) :
    t.runs = rows.countP frontRun + rows.countP backRun
    ∧ runPatterns =
        (List.range' 1 5).map (fun a => [a, a + 1, a + 2, a + 3]) ++
          (List.range' 1 5).map
            (fun a => ([a, a + 1, a + 2, a + 3] : List Nat).reverse)
    ∧ runPatterns.length = 10 := by
  rw [mkTouch_eq_of_gen hgen hlast hmeth] at ht
  by_cases hlen : len = rows.length
  · rw [if_pos hlen] at ht
    simp only [Option.some.injEq, Except.ok.injEq] at ht
    subst ht
    exact ⟨count_runs_eq rows, by decide, by decide⟩
  · rw [if_neg hlen] at ht
    cases ht

/-- Witness for the amended C5: the run count of the concrete fixture
touch equals the sum of its independent front and back matches. -/
theorem run_count_spec_witness :
    touchUU.runs = ([ROUNDS, rowB] : List Row).countP frontRun +
        ([ROUNDS, rowB] : List Row).countP backRun
    ∧ runPatterns =
        (List.range' 1 5).map (fun a => [a, a + 1, a + 2, a + 3]) ++
          (List.range' 1 5).map
            (fun a => ([a, a + 1, a + 2, a + 3] : List Nat).reverse)
    ∧ runPatterns.length = 10 :=
  run_count_spec tblF 2 ("UU" : String) touchUU [ROUNDS, rowB] [] 0 'U'
    Option.none methU (by decide) (by decide) (by decide) (by decide)

/-- Claim C8.  Declared-length check: once composition has produced a
final row sequence, touch construction succeeds exactly when the declared
length equals the number of rows, and on a mismatch it fails with a
LengthMismatch error naming the call-string, the declared length and the
actual row count. -/
theorem length_mismatch_spec
    (methods : Char → Option Method) (len : Nat) (cs : String)
    (rows : List Row) (calls : List Call) (lll : Int)
    (last_sh : Char) (last_call : Option Char)
    (hgen : gen_rows_and_calls methods (tokenize cs.toList) =
      some (Except.ok (rows, calls, lll)))
    (hlast : (tokenize cs.toList).getLast? = some (last_sh, last_call)) :
    ((∃ t, mkTouch methods len cs = some (Except.ok t)) ↔ len = rows.length)
    ∧ (len ≠ rows.length →
        mkTouch methods len cs =
          some (Except.error (TouchError.LengthMismatch cs len rows.length))) := by
  obtain ⟨raw, fin, rawlll, hloop, _⟩ := gen_ok_destruct hgen
  obtain ⟨lastMeth, hmeth⟩ := genLoop_methods_defined hloop (last_sh, last_call)
    (List.mem_of_mem_getLast? hlast)
  have heq := @mkTouch_eq_of_gen methods len cs rows calls lll last_sh
    last_call lastMeth hgen hlast hmeth
  constructor
  · constructor
    · rintro ⟨t, ht⟩
      rw [heq] at ht
      by_cases hlen : len = rows.length
      · exact hlen
      · rw [if_neg hlen] at ht
        cases ht
    · intro hlen
      rw [heq, if_pos hlen]
      exact ⟨_, rfl⟩
  · intro hlen
    rw [heq, if_neg hlen]

/-- Witness for C8: declaring length three for a fixture touch whose
composed sequence has two rows fails with a LengthMismatch naming the
call-string and both numbers. -/
theorem length_mismatch_spec_witness :
    mkTouch tblF 3 ("U" : String) =
      some (Except.error (TouchError.LengthMismatch ("U" : String) 3 2)) :=
  (length_mismatch_spec tblF 3 ("U" : String) [ROUNDS, rowB] [] 2 'U'
      Option.none (by decide) (by decide)).2 (by decide)

/-- Claim C9.  Rounds-uniqueness invariant: if every method of the table
starts its lead at rounds, then the row sequence of every successfully
constructed touch contains rounds exactly once, namely at index 0. -/
theorem touch_rounds_unique_spec
    (methods : Char → Option Method) (len : Nat) (cs : String) (t : Touch)
    (hm : ∀ c meth, methods c = some meth → meth.lead_rows.head? = some ROUNDS)
    (ht : mkTouch methods len cs = some (Except.ok t)) :
    ∀ i, t.rows.get? i = some ROUNDS ↔ i = 0 := by
  obtain ⟨rows, calls, lll, last_sh, last_call, lastMeth, hgen, hlast, hmeth,
    hlen, htEq⟩ := mkTouch_ok_destruct ht
  subst htEq
  dsimp only
  obtain ⟨raw, fin, rawlll, hloop, hcases⟩ := gen_ok_destruct hgen
  have hne : tokenize cs.toList ≠ [] := by
    intro hc
    rw [hc] at hlast
    cases hlast
  obtain ⟨hd, tl, hleads⟩ : ∃ hd tl, tokenize cs.toList = hd :: tl := by
    rcases hx : tokenize cs.toList with _ | ⟨hd, tl⟩
    · exact absurd hx hne
    · exact ⟨hd, tl, rfl⟩
  rw [hleads] at hloop
  rcases hd with ⟨m0, call0⟩
  obtain ⟨meth0, newHead, newCalls, rows', calls', hM0, _, hraw, _, _⟩ :=
    genLoop_cons_some hloop
  have hhead0 : meth0.lead_rows.head? = some ROUNDS := hm m0 meth0 hM0
  have hrawhead : raw.get? 0 = some ROUNDS := by
    rw [hraw]
    rcases hlr : meth0.lead_rows with _ | ⟨r0, rrest⟩
    · rw [hlr] at hhead0
      cases hhead0
    · rw [hlr] at hhead0
      have hr0 : r0 = ROUNDS := by simpa using hhead0
      subst hr0
      simp only [List.map_cons, List.cons_append, List.get?_cons_zero,
        Option.some.injEq]
      decide
  rcases hcases with ⟨j, hj, hrows, _⟩ | ⟨hnone, _, hrows, _⟩
  · subst hrows
    obtain ⟨hjget, hjmin⟩ := (firstIdx_eq_some_iff ROUNDS (raw.drop 1) j).mp hj
    intro i
    rw [get?_take_eq]
    constructor
    · intro hi
      by_cases hik : i < j + 1
      · rw [if_pos hik] at hi
        rcases i with _ | i
        · rfl
        · exfalso
          have hmin := hjmin i (by omega)
          rw [get?_drop_one] at hmin
          exact hmin hi
      · rw [if_neg hik] at hi
        cases hi
    · intro hi
      subst hi
      rw [if_pos (by omega)]
      exact hrawhead
  · rw [hrows]
    have hno : ∀ i2, (raw.drop 1).get? i2 ≠ some ROUNDS :=
      (firstIdx_eq_none_iff ROUNDS (raw.drop 1)).mp hnone
    intro i
    constructor
    · intro hi
      rcases i with _ | i
      · rfl
      · exfalso
        have hmin := hno i
        rw [get?_drop_one] at hmin
        exact hmin hi
    · intro hi
      subst hi
      exact hrawhead

/-- The touch the fixture table composes for a single plain lead of the
fixture method that comes round exactly at the end. -/
def touchU : Touch :=
  { length := 2, call_string := ("U" : String), rows := [ROUNDS, rowB],
    calls := [], method_counts := [('U', 1)], runs := 2 }

/-- Witness for C9: on the concrete fixture touch, rounds is at index 0
and not at index 1. -/
theorem touch_rounds_unique_spec_witness :
    (touchU.rows.get? 0 = some ROUNDS ↔ 0 = 0) ∧
    (touchU.rows.get? 1 = some ROUNDS ↔ 1 = 0) := by
  have hm : ∀ c meth, tblF c = some meth →
      meth.lead_rows.head? = some ROUNDS := by
    intro c meth h
    unfold tblF at h
    by_cases h1 : c = 'T'
    · rw [if_pos h1] at h
      cases h
      decide
    · rw [if_neg h1] at h
      by_cases h2 : c = 'U'
      · rw [if_pos h2] at h
        cases h
        decide
      · rw [if_neg h2] at h
        by_cases h3 : c = 'V'
        · rw [if_pos h3] at h
          cases h
          decide
        · rw [if_neg h3] at h
          cases h
  exact ⟨touch_rounds_unique_spec tblF 2 ("U" : String) touchU hm (by decide) 0,
    touch_rounds_unique_spec tblF 2 ("U" : String) touchU hm (by decide) 1⟩

end Spliced
